import Mathlib

/-!
Verification of the BepInEx profile installer
(`src/r2mm/installing/profile_installers/BepInExProfileInstaller.ts`).

Strings are embedded as lists of characters (`Str`); filesystem paths are
strings with `/` separators built by `pjoin`, mirroring `path.join`.
Filesystem mutation is embedded as a trace of `FsOp` operations: each
operation the installer performs on the real filesystem appears, in program
order, in the trace produced by the corresponding Lean function.  Fallible
execution is embedded by an oracle `fails : FsOp → Bool` telling which
primitive operations throw; a run returns the list of operations it actually
attempted together with the first failing operation, if any (the TypeScript
code catches the exception and returns an error value built from it).
-/

namespace R2

abbrev Str := List Char

/-- Coerce a Lean string literal to the `List Char` representation. -/
def str (s : String) : Str := s.data

/-- The path separator used by `path.join`. -/
def sep : Char := '/'

/-- `path.join a b` for non-empty, already-normalized segments. -/
def pjoin (a b : Str) : Str := a ++ sep :: b

/-- JavaScript `String.prototype.toLowerCase`, character by character. -/
def toLower (s : Str) : Str := s.map Char.toLower

/-- JavaScript `String.prototype.endsWith`. -/
def strEndsWith (s post : Str) : Bool := decide (post <:+ s)

/-- Node's `path.basename`: the part of the path after the last separator. -/
def basename (p : Str) : Str := p.foldl (fun acc c => if c = sep then [] else acc ++ [c]) []

/-- Modelled from the spec: `FileTree` (`model/file/FileTree.ts` is not part
of the sources) is an immutable snapshot of one directory level, holding the
absolute paths of the files directly at this level and a name-keyed list of
child trees. -/
inductive FileTree where
  | node (files : List Str) (dirs : List (Str × FileTree))

/-- The files directly at this level (`FileTree.getFiles`). -/
def FileTree.getFiles : FileTree → List Str
  | .node files _ => files

/-- The child directories of this level (`FileTree.getDirectories`). -/
def FileTree.getDirs : FileTree → List (Str × FileTree)
  | .node _ dirs => dirs

mutual
/-- Modelled from the spec: `FileTree.getRecursiveFiles`, the recursive
flattening operation producing every file path at or below a node. -/
def getRecursiveFiles : FileTree → List Str
  | .node files dirs => files ++ getRecursiveFilesL dirs
def getRecursiveFilesL : List (Str × FileTree) → List Str
  | [] => []
  | (_, t) :: rest => getRecursiveFiles t ++ getRecursiveFilesL rest
end

/-- The `RuleType` consumed by the installer: an association list from
recognized folder names to profile-relative destination subpaths
(`rule.rules`, a JS object, keys unique), plus the fallback subpath
(`rule._defaultPath`). -/
structure RuleType where
  rules : List (Str × Str)
  defaultPath : Str

/-- `ModMode` (`model/enums/ModMode.ts`): the two-valued enable/disable mode. -/
inductive ModMode where
  | DISABLED
  | ENABLED
deriving DecidableEq

/-- The extension list from line 22 of `BepInExProfileInstaller.ts`. -/
def modModeExtensions : List Str :=
  [str ".dll", str ".language", str "skin.cfg", str ".hotmod", str ".h3mod",
   str ".deli", str ".ros"]

/-- The `'.old'` suffix appended to a disabled file's name. -/
def oldSuffix : Str := str ".old"

/-- One filesystem mutation performed by the installer. -/
inductive FsOp where
  | ensureDir (p : Str)
  | copyFolder (src dst : Str)
  | copyFile (src dst : Str)
  | rename (src dst : Str)
  | unlink (p : Str)
  | removeModDir (p : Str)
deriving DecidableEq

/-- Attempt a list of operations in order, stopping at the first failure.
Returns the operations actually attempted and the first failing one. -/
def runOps (fails : FsOp → Bool) : List FsOp → List FsOp × Option FsOp
  | [] => ([], none)
  | op :: rest =>
    if fails op then ([op], some op)
    else (op :: (runOps fails rest).1, (runOps fails rest).2)

/-- The rule lookup of `resolveBepInExTree` lines 175-177:
`Object.keys(this.rule.rules).find(folder => folder.toLowerCase() ===
folderName.toLowerCase())`, paired with the destination
`this.rule.rules[matchingEndFolderName]`. -/
def findMatchingRule (rules : List (Str × Str)) (folderName : Str) : Option (Str × Str) :=
  rules.find? (fun kv => toLower kv.1 == toLower folderName)

/-- The operations of the per-file loop of `resolveBepInExTree`
(lines 212-251): for each file, in order, ensure the destination directory
(monomod for `.mm.dll` files, the rule's default path otherwise, both
namespaced by mod name) and copy the file there under its base name. -/
def installFileOps (rule : RuleType) (profilePath modName : Str) (files : List Str) :
    List FsOp :=
  files.flatMap (fun file =>
    let profileLocation :=
      if strEndsWith (toLower file) (str ".mm.dll") then
        pjoin (pjoin (pjoin profilePath (str "BepInEx")) (str "monomod")) modName
      else
        pjoin (pjoin profilePath rule.defaultPath) modName
    [FsOp.ensureDir profileLocation,
     FsOp.copyFile file (pjoin profileLocation (basename file))])

mutual
/-- `resolveBepInExTree` (lines 174-266), as a trace/first-error semantics:
if `folderName` case-insensitively matches a rule key, ensure the destination
directory (shared for `config`, namespaced by mod name otherwise) and copy
the whole folder there, ending this branch; otherwise place every direct file
individually and recurse into every child directory under its own name.
Every step returns the error of the first failing operation immediately. -/
def resolveBepInExTree (fails : FsOp → Bool) (rule : RuleType) (profilePath modName : Str) :
    Str → Str → FileTree → List FsOp × Option FsOp
  | location, folderName, .node files dirs =>
    match findMatchingRule rule.rules folderName with
    | some kv =>
      let profileLocation :=
        if toLower folderName = str "config" then pjoin profilePath kv.2
        else pjoin (pjoin profilePath kv.2) modName
      if fails (.ensureDir profileLocation) then
        ([.ensureDir profileLocation], some (.ensureDir profileLocation))
      else if fails (.copyFolder location profileLocation) then
        ([.ensureDir profileLocation, .copyFolder location profileLocation],
         some (.copyFolder location profileLocation))
      else
        ([.ensureDir profileLocation, .copyFolder location profileLocation], none)
    | none =>
      let f := runOps fails (installFileOps rule profilePath modName files)
      if f.2.isSome then f
      else
        let d := resolveDirs fails rule profilePath modName location dirs
        (f.1 ++ d.1, d.2)

/-- The directory loop of `resolveBepInExTree` (lines 253-265): recurse into
each child in order, with the child's own name as the new folder name,
returning the first error immediately. -/
def resolveDirs (fails : FsOp → Bool) (rule : RuleType) (profilePath modName : Str) :
    Str → List (Str × FileTree) → List FsOp × Option FsOp
  | _, [] => ([], none)
  | location, (dname, dtree) :: rest =>
    let hd := resolveBepInExTree fails rule profilePath modName (pjoin location dname) dname dtree
    if hd.2.isSome then hd
    else
      let tl := resolveDirs fails rule profilePath modName location rest
      (hd.1 ++ tl.1, tl.2)
end

/-- The per-file rename operations in the second loop of `applyModMode`
(lines 118-132): when disabling, each extension whose lowercased form ends
the lowercased file name triggers a rename appending `.old`; when enabling,
each extension such that the lowercased file name ends with it followed by
`.old` triggers a rename dropping the last four characters. -/
def fileModeOps (mode : ModMode) (file : Str) : List FsOp :=
  match mode with
  | .DISABLED =>
    modModeExtensions.filterMap (fun ext =>
      if strEndsWith (toLower file) ext then
        some (.rename file (file ++ oldSuffix))
      else none)
  | .ENABLED =>
    modModeExtensions.filterMap (fun ext =>
      if strEndsWith (toLower file) (ext ++ oldSuffix) then
        some (.rename file (file.take (file.length - oldSuffix.length)))
      else none)

mutual
/-- `applyModMode` (lines 106-142): walk the directory loop (recursing into
children whose name differs from the mod's name, collecting the recursive
files of children whose name equals it, strict `!==` comparison), then
attempt the rename operations for each collected file, stopping at the first
failure. -/
def applyModMode (fails : FsOp → Bool) (modName : Str) :
    FileTree → Str → ModMode → List FsOp × Option FsOp
  | .node _ dirs, location, mode =>
    let d := applyDirs fails modName location mode dirs
    if d.2.2.isSome then (d.2.1, d.2.2)
    else
      let r := runOps fails (d.1.flatMap (fileModeOps mode))
      (d.2.1 ++ r.1, r.2)

/-- The directory loop of `applyModMode` (lines 108-117): returns the files
collected from directories named exactly like the mod, the trace of the
recursive calls into the other directories, and the first error if any. -/
def applyDirs (fails : FsOp → Bool) (modName : Str) :
    Str → ModMode → List (Str × FileTree) → List Str × List FsOp × Option FsOp
  | _, _, [] => ([], [], none)
  | location, mode, (dname, dtree) :: rest =>
    if dname ≠ modName then
      let a := applyModMode fails modName dtree (pjoin location dname) mode
      if a.2.isSome then ([], a.1, a.2)
      else
        let b := applyDirs fails modName location mode rest
        (b.1, a.1 ++ b.2.1, b.2.2)
    else
      let b := applyDirs fails modName location mode rest
      (getRecursiveFiles dtree ++ b.1, b.2.1, b.2.2)
end

/-- The view of the profile directory that `uninstallMod` reads:
the entries directly at the profile root (name, `lstat(..).isFile()`),
whether the `BepInEx` directory exists, its entries
(name, `lstat(..).isDirectory()`), and for each of those the entries one
level deeper (name, `lstat(..).isDirectory()`). -/
structure ProfileView where
  rootEntries : List (Str × Bool)
  bepInExExists : Bool
  bepInExEntries : List (Str × Bool)
  subEntries : Str → List (Str × Bool)

/-- The loader-root pass of `uninstallMod` (lines 42-61): if the mod's name
case-insensitively matches a loader-variant package name, every root entry
that is a file and whose lowercased name differs from `mods.yml` is
unlinked. -/
def uninstallRootOps (variants : List Str) (modName : Str) (profilePath : Str)
    (v : ProfileView) : List FsOp :=
  if (variants.find? (fun p => toLower p == toLower modName)).isSome then
    v.rootEntries.flatMap (fun e =>
      if e.2 then
        if toLower e.1 = str "mods.yml" then [] else [FsOp.unlink (pjoin profilePath e.1)]
      else [])
  else []

/-- The managed-subfolder pass of `uninstallMod` (lines 62-84): if `BepInEx`
exists, inside each of its directory entries every entry that is a directory
named exactly (`===`) like the mod is emptied and removed. -/
def uninstallSubOps (modName : Str) (profilePath : Str) (v : ProfileView) : List FsOp :=
  if v.bepInExExists then
    v.bepInExEntries.flatMap (fun e =>
      if e.2 then
        (v.subEntries e.1).flatMap (fun f =>
          if f.1 = modName ∧ f.2 = true then
            [FsOp.removeModDir (pjoin (pjoin (pjoin profilePath (str "BepInEx")) e.1) f.1)]
          else [])
      else [])
  else []

/-- `uninstallMod` (lines 40-86), as the list of deletions it performs.
`variants` is the list of `packageName`s of `MOD_LOADER_VARIANTS` for the
active game.  The loader-root pass runs first, then the managed-subfolder
pass. -/
def uninstallMod (variants : List Str) (modName : Str) (profilePath : Str)
    (v : ProfileView) : List FsOp :=
  uninstallRootOps variants modName profilePath v ++
    uninstallSubOps modName profilePath v

/-- The oracle under which no filesystem operation fails. -/
def noFail : FsOp → Bool := fun _ => false

/-- The operations `resolveBepInExTree` performs on a failure-free run. -/
def resolveTrace (rule : RuleType) (profilePath modName location folderName : Str)
    (tree : FileTree) : List FsOp :=
  (resolveBepInExTree noFail rule profilePath modName location folderName tree).1

/-- The operations `applyModMode` performs on a failure-free run. -/
def applyTrace (modName : Str) (tree : FileTree) (location : Str) (mode : ModMode) :
    List FsOp :=
  (applyModMode noFail modName tree location mode).1

/-! ### Generic path and string lemmas -/

theorem pjoin_eq (a b : Str) : pjoin a b = (a ++ [sep]) ++ b := by
  simp [pjoin]

theorem pjoin_inj_right {loc a b : Str} (h : pjoin loc a = pjoin loc b) : a = b := by
  simp [pjoin] at h
  exact h

theorem prefixTotal {a b c : Str} (h1 : a <+: c) (h2 : b <+: c) : a <+: b ∨ b <+: a := by
  obtain ⟨t1, ht1⟩ := h1
  obtain ⟨t2, ht2⟩ := h2
  rw [← ht2] at ht1
  rcases List.append_eq_append_iff.mp ht1 with ⟨a', ha, _⟩ | ⟨c', hc, _⟩
  · exact Or.inl ⟨a', ha.symm⟩
  · exact Or.inr ⟨c', hc.symm⟩

theorem suffixTotal {a b c : Str} (h1 : a <:+ c) (h2 : b <:+ c) : a <:+ b ∨ b <:+ a := by
  obtain ⟨t1, ht1⟩ := h1
  obtain ⟨t2, ht2⟩ := h2
  rw [← ht2] at ht1
  rcases List.append_eq_append_iff.mp ht1 with ⟨a', _, hb⟩ | ⟨c', _, ha⟩
  · exact Or.inr ⟨a', hb.symm⟩
  · exact Or.inl ⟨c', ha.symm⟩

theorem suffix_append_same {a b : Str} (t : Str) (h : a <:+ b) : a ++ t <:+ b ++ t := by
  obtain ⟨u, hu⟩ := h
  exact ⟨u, by rw [← List.append_assoc, hu]⟩

theorem suffix_append_cancel {a b : Str} (t : Str) (h : a ++ t <:+ b ++ t) : a <:+ b := by
  obtain ⟨u, hu⟩ := h
  rw [← List.append_assoc] at hu
  exact ⟨u, List.append_cancel_right hu⟩

/-- A path strictly below `base` in the directory hierarchy. -/
def under (base p : Str) : Prop := base ++ [sep] <+: p

instance (base p : Str) : Decidable (under base p) :=
  inferInstanceAs (Decidable (base ++ [sep] <+: p))

theorem under_pjoin (loc n : Str) : under loc (pjoin loc n) :=
  ⟨n, by simp [pjoin]⟩

theorem under_trans_left {b p f : Str} (h1 : under b p) (h2 : under p f) : under b f :=
  List.IsPrefix.trans h1 (List.IsPrefix.trans (List.prefix_append p [sep]) h2)

theorem under_of_branch {loc d p : Str} (h : under (pjoin loc d) p) : under loc p :=
  under_trans_left (under_pjoin loc d) h

theorem ne_of_under {loc f : Str} (h : under loc f) : f ≠ loc := by
  obtain ⟨t, ht⟩ := h
  intro he
  have hl := congrArg List.length ht
  rw [he] at hl
  simp at hl

theorem under_unfold {loc d p : Str} :
    under (pjoin loc d) p ↔ (loc ++ [sep]) ++ (d ++ [sep]) <+: p := by
  unfold under
  rw [pjoin_eq]
  simp [List.append_assoc]

theorem sepFree_eq_of_seg {d d' : Str} (hd' : sep ∉ d') (h : d ++ [sep] <+: d' ++ [sep]) :
    d = d' := by
  obtain ⟨t, ht⟩ := h
  rcases List.eq_nil_or_concat t with rfl | ⟨q, c, rfl⟩
  · rw [List.append_nil] at ht
    exact (List.append_inj' ht rfl).1
  · rw [List.concat_eq_append, ← List.append_assoc] at ht
    have h2 := List.append_inj' ht rfl
    exact absurd (h2.1 ▸ (by simp : sep ∈ d ++ [sep] ++ q)) hd'

theorem branch_disjoint {loc d d' p : Str} (hd : sep ∉ d) (hd' : sep ∉ d')
    (hne : d ≠ d') (h1 : under (pjoin loc d) p) (h2 : under (pjoin loc d') p) : False := by
  rw [under_unfold] at h1 h2
  rcases prefixTotal h1 h2 with h | h
  · exact hne (sepFree_eq_of_seg hd' ((List.prefix_append_right_inj (loc ++ [sep])).mp h))
  · exact hne.symm (sepFree_eq_of_seg hd ((List.prefix_append_right_inj (loc ++ [sep])).mp h))

theorem file_not_under_branch {loc d n : Str} (hn : sep ∉ n)
    (h : under (pjoin loc d) (pjoin loc n)) : False := by
  rw [under_unfold, pjoin_eq] at h
  have h2 := (List.prefix_append_right_inj (loc ++ [sep])).mp h
  exact hn (h2.subset (by simp))

theorem strEndsWith_iff {s post : Str} : strEndsWith s post = true ↔ post <:+ s := by
  simp [strEndsWith]

theorem toLower_append (a b : Str) : toLower (a ++ b) = toLower a ++ toLower b := by
  simp [toLower]

/-! ### Facts about the extension list -/

theorem oldSuffix_toLower : toLower oldSuffix = oldSuffix := by decide

theorem oldSuffix_length : oldSuffix.length = 4 := by decide

theorem ext_nodup : modModeExtensions.Nodup := by decide

theorem ext_no_suffix : ∀ e1 ∈ modModeExtensions, ∀ e2 ∈ modModeExtensions,
    e1 ≠ e2 → ¬ e1 <:+ e2 := by decide

theorem ext_not_suffix_extOld : ∀ e1 ∈ modModeExtensions, ∀ e2 ∈ modModeExtensions,
    ¬ e1 <:+ (e2 ++ oldSuffix) := by decide

theorem extOld_not_suffix_ext : ∀ e1 ∈ modModeExtensions, ∀ e2 ∈ modModeExtensions,
    ¬ (e1 ++ oldSuffix) <:+ e2 := by decide

/-- Two distinct recognized extensions are never both suffixes of one string. -/
theorem ext_unique {s e1 e2 : Str} (h1m : e1 ∈ modModeExtensions)
    (h2m : e2 ∈ modModeExtensions) (h1 : e1 <:+ s) (h2 : e2 <:+ s) : e1 = e2 := by
  by_contra hne
  rcases suffixTotal h1 h2 with h | h
  · exact ext_no_suffix e1 h1m e2 h2m hne h
  · exact ext_no_suffix e2 h2m e1 h1m (Ne.symm hne) h

/-! ### filterMap helpers -/

theorem filterMap_const_nil {α β : Type} (l : List α) (p : α → Bool) (out : β)
    (h : ∀ b ∈ l, p b = false) :
    (l.filterMap fun x => if p x then some out else none) = [] := by
  induction l with
  | nil => rfl
  | cons x xs ih =>
    have hx := h x (by simp)
    simp only [List.filterMap_cons, hx, if_neg (by simp [hx] : ¬ p x = true)]
    exact ih (fun b hb => h b (by simp [hb]))

theorem filterMap_const_singleton {α β : Type} (l : List α) (p : α → Bool) (out : β)
    (hnd : l.Nodup) (a : α) (ha : a ∈ l) (hpa : p a = true)
    (huniq : ∀ b ∈ l, p b = true → b = a) :
    (l.filterMap fun x => if p x then some out else none) = [out] := by
  induction l with
  | nil => simp at ha
  | cons x xs ih =>
    rcases List.mem_cons.mp ha with rfl | hax
    · simp only [List.filterMap_cons, if_pos hpa]
      have : (xs.filterMap fun x => if p x then some out else none) = [] := by
        apply filterMap_const_nil
        intro b hb
        by_contra hpb
        have := huniq b (by simp [hb]) (by simpa using hpb)
        subst this
        exact (List.nodup_cons.mp hnd).1 hb
      rw [this]
    · have hpx : p x = false := by
        by_contra hpx
        have := huniq x (by simp) (by simpa using hpx)
        subst this
        exact (List.nodup_cons.mp hnd).1 hax
      simp only [List.filterMap_cons, hpx, if_neg (by simp [hpx] : ¬ p x = true)]
      exact ih (List.nodup_cons.mp hnd).2 hax (fun b hb hpb => huniq b (by simp [hb]) hpb)

/-! ### `runOps` lemmas -/

theorem runOps_all_ok {fails : FsOp → Bool} {ops : List FsOp}
    (h : ∀ op ∈ ops, fails op = false) : runOps fails ops = (ops, none) := by
  induction ops with
  | nil => rfl
  | cons op rest ih =>
    have hop := h op (by simp)
    simp only [runOps, hop, Bool.false_eq_true, if_false]
    rw [ih (fun op' h' => h op' (by simp [h']))]

theorem runOps_noFail (ops : List FsOp) : runOps noFail ops = (ops, none) :=
  runOps_all_ok (fun _ _ => rfl)

theorem runOps_ok_trace {fails : FsOp → Bool} {ops : List FsOp}
    (h : (runOps fails ops).2 = none) :
    (runOps fails ops).1 = ops ∧ ∀ op ∈ ops, fails op = false := by
  induction ops with
  | nil => simp [runOps]
  | cons op rest ih =>
    by_cases hf : fails op
    · simp [runOps, hf] at h
    · simp only [runOps, hf, Bool.false_eq_true, if_false] at h ⊢
      obtain ⟨h1, h2⟩ := ih h
      refine ⟨by simp [h1], ?_⟩
      intro op' h'
      rcases List.mem_cons.mp h' with rfl | h'
      · simpa using hf
      · exact h2 op' h'

theorem runOps_append_ok {fails : FsOp → Bool} {a : List FsOp} (b : List FsOp)
    (h : (runOps fails a).2 = none) :
    runOps fails (a ++ b) = ((runOps fails a).1 ++ (runOps fails b).1, (runOps fails b).2) := by
  induction a with
  | nil => simp [runOps]
  | cons op rest ih =>
    by_cases hf : fails op
    · simp [runOps, hf] at h
    · simp only [List.cons_append, List.append_eq, runOps, hf, Bool.false_eq_true,
        if_false] at h ⊢
      rw [ih h]

theorem runOps_append_err {fails : FsOp → Bool} {a : List FsOp} (b : List FsOp) {e : FsOp}
    (h : (runOps fails a).2 = some e) :
    runOps fails (a ++ b) = runOps fails a := by
  induction a with
  | nil => simp [runOps] at h
  | cons op rest ih =>
    by_cases hf : fails op
    · simp [runOps, hf]
    · simp only [List.cons_append, List.append_eq, runOps, hf, Bool.false_eq_true,
        if_false] at h ⊢
      rw [ih h]

theorem runOps_err {fails : FsOp → Bool} {ops : List FsOp} {e : FsOp}
    (h : (runOps fails ops).2 = some e) :
    fails e = true ∧ ∃ pre, (runOps fails ops).1 = pre ++ [e] ∧
      (∀ op ∈ pre, fails op = false) ∧ (pre ++ [e]) <+: ops := by
  induction ops with
  | nil => simp [runOps] at h
  | cons op rest ih =>
    by_cases hf : fails op
    · simp only [runOps, hf, if_true, Option.some.injEq] at h
      subst h
      refine ⟨hf, [], ?_, by simp, ⟨rest, by simp⟩⟩
      simp [runOps, hf]
    · simp only [runOps, hf, Bool.false_eq_true, if_false] at h ⊢
      obtain ⟨h1, pre, h2, h3, h4⟩ := ih h
      refine ⟨h1, op :: pre, ?_, ?_, ?_⟩
      · simp [h2]
      · intro op' h'
        rcases List.mem_cons.mp h' with rfl | h'
        · simpa using hf
        · exact h3 op' h'
      · simpa using h4

/-! ### Failure-free runs -/

mutual
theorem resolve_noFail_ok (rule : RuleType) (pp mn loc name : Str) (t : FileTree) :
    (resolveBepInExTree noFail rule pp mn loc name t).2 = none := by
  cases t with
  | node files dirs =>
    simp only [resolveBepInExTree]
    cases hm : findMatchingRule rule.rules name with
    | some kv => simp [noFail]
    | none =>
      simp only [runOps_noFail, Option.isSome_none, Bool.false_eq_true, if_false]
      exact resolveDirs_noFail_ok rule pp mn loc dirs

theorem resolveDirs_noFail_ok (rule : RuleType) (pp mn loc : Str)
    (dirs : List (Str × FileTree)) :
    (resolveDirs noFail rule pp mn loc dirs).2 = none := by
  cases dirs with
  | nil => simp [resolveDirs]
  | cons d rest =>
    obtain ⟨dname, dtree⟩ := d
    simp only [resolveDirs, resolve_noFail_ok rule pp mn (pjoin loc dname) dname dtree,
      Option.isSome_none, Bool.false_eq_true, if_false]
    exact resolveDirs_noFail_ok rule pp mn loc rest
end

mutual
theorem apply_noFail_ok (m : Str) (t : FileTree) (loc : Str) (mode : ModMode) :
    (applyModMode noFail m t loc mode).2 = none := by
  cases t with
  | node files dirs =>
    simp only [applyModMode, applyDirs_noFail_ok m loc mode dirs, Option.isSome_none,
      Bool.false_eq_true, if_false, runOps_noFail]

theorem applyDirs_noFail_ok (m loc : Str) (mode : ModMode) (dirs : List (Str × FileTree)) :
    (applyDirs noFail m loc mode dirs).2.2 = none := by
  cases dirs with
  | nil => simp [applyDirs]
  | cons d rest =>
    obtain ⟨dname, dtree⟩ := d
    by_cases hne : dname ≠ m
    · simp only [applyDirs, if_pos hne, apply_noFail_ok m dtree (pjoin loc dname) mode,
        Option.isSome_none, Bool.false_eq_true, if_false]
      exact applyDirs_noFail_ok m loc mode rest
    · simp only [applyDirs, if_neg hne]
      exact applyDirs_noFail_ok m loc mode rest
end

/-! ### Trace characterizations of failure-free runs -/

theorem resolveTrace_matched {rule : RuleType} {pp mn loc name : Str}
    {files : List Str} {dirs : List (Str × FileTree)} {kv : Str × Str}
    (h : findMatchingRule rule.rules name = some kv) :
    resolveTrace rule pp mn loc name (.node files dirs) =
      [FsOp.ensureDir (if toLower name = str "config" then pjoin pp kv.2
          else pjoin (pjoin pp kv.2) mn),
       FsOp.copyFolder loc (if toLower name = str "config" then pjoin pp kv.2
          else pjoin (pjoin pp kv.2) mn)] := by
  simp only [resolveTrace, resolveBepInExTree, h, noFail, Bool.false_eq_true, if_false]

theorem resolveTrace_unmatched {rule : RuleType} {pp mn loc name : Str}
    {files : List Str} {dirs : List (Str × FileTree)}
    (h : findMatchingRule rule.rules name = none) :
    resolveTrace rule pp mn loc name (.node files dirs) =
      installFileOps rule pp mn files ++ (resolveDirs noFail rule pp mn loc dirs).1 := by
  simp only [resolveTrace, resolveBepInExTree, h, runOps_noFail, Option.isSome_none,
    Bool.false_eq_true, if_false]

theorem resolveDirsTrace_nil {rule : RuleType} {pp mn loc : Str} :
    (resolveDirs noFail rule pp mn loc ([] : List (Str × FileTree))).1 = [] := by
  simp [resolveDirs]

theorem resolveDirsTrace_cons {rule : RuleType} {pp mn loc dname : Str} {dtree : FileTree}
    {rest : List (Str × FileTree)} :
    (resolveDirs noFail rule pp mn loc ((dname, dtree) :: rest)).1 =
      resolveTrace rule pp mn (pjoin loc dname) dname dtree ++
      (resolveDirs noFail rule pp mn loc rest).1 := by
  simp only [resolveDirs, resolve_noFail_ok rule pp mn (pjoin loc dname) dname dtree,
    Option.isSome_none, Bool.false_eq_true, if_false, resolveTrace]

theorem resolveDirsTrace_flatMap {rule : RuleType} {pp mn loc : Str}
    {dirs : List (Str × FileTree)} :
    (resolveDirs noFail rule pp mn loc dirs).1 =
      dirs.flatMap (fun d => resolveTrace rule pp mn (pjoin loc d.1) d.1 d.2) := by
  induction dirs with
  | nil => simp [resolveDirsTrace_nil]
  | cons d rest ih =>
    obtain ⟨dname, dtree⟩ := d
    simp [resolveDirsTrace_cons, ih]

theorem applyDirs_collected {m loc : Str} {mode : ModMode} {dirs : List (Str × FileTree)} :
    (applyDirs noFail m loc mode dirs).1 =
      dirs.flatMap (fun d => if d.1 = m then getRecursiveFiles d.2 else []) := by
  induction dirs with
  | nil => simp [applyDirs]
  | cons d rest ih =>
    obtain ⟨dname, dtree⟩ := d
    by_cases hne : dname ≠ m
    · simp only [applyDirs, if_pos hne, apply_noFail_ok m dtree (pjoin loc dname) mode,
        Option.isSome_none, Bool.false_eq_true, if_false, List.flatMap_cons, ih,
        if_neg hne, List.nil_append]
    · push_neg at hne
      simp only [applyDirs, if_neg (by simp [hne] : ¬ dname ≠ m), List.flatMap_cons,
        if_pos hne, ih]

theorem applyTrace_eq {m : Str} {files : List Str} {dirs : List (Str × FileTree)}
    {loc : Str} {mode : ModMode} :
    applyTrace m (.node files dirs) loc mode =
      (applyDirs noFail m loc mode dirs).2.1 ++
      ((applyDirs noFail m loc mode dirs).1.flatMap (fileModeOps mode)) := by
  simp only [applyTrace, applyModMode, applyDirs_noFail_ok m loc mode dirs,
    Option.isSome_none, Bool.false_eq_true, if_false, runOps_noFail]

theorem applyDirsTrace_cons {m loc dname : Str} {dtree : FileTree}
    {rest : List (Str × FileTree)} {mode : ModMode} :
    (applyDirs noFail m loc mode ((dname, dtree) :: rest)).2.1 =
      (if dname = m then [] else applyTrace m dtree (pjoin loc dname) mode) ++
      (applyDirs noFail m loc mode rest).2.1 := by
  by_cases hne : dname ≠ m
  · simp only [applyDirs, if_pos hne, apply_noFail_ok m dtree (pjoin loc dname) mode,
      Option.isSome_none, Bool.false_eq_true, if_false, applyTrace,
      if_neg (by simpa using hne)]
  · push_neg at hne
    simp only [applyDirs, if_neg (by simp [hne] : ¬ dname ≠ m), if_pos hne,
      List.nil_append]

/-! ### A run under failures is `runOps` of the failure-free trace -/

mutual
theorem resolve_runOps (fails : FsOp → Bool) (rule : RuleType) (pp mn loc name : Str)
    (t : FileTree) :
    resolveBepInExTree fails rule pp mn loc name t =
      runOps fails (resolveTrace rule pp mn loc name t) := by
  cases t with
  | node files dirs =>
    cases hm : findMatchingRule rule.rules name with
    | some kv =>
      rw [resolveTrace_matched hm]
      simp only [resolveBepInExTree, hm]
      by_cases h1 : fails (FsOp.ensureDir (if toLower name = str "config" then pjoin pp kv.2
          else pjoin (pjoin pp kv.2) mn))
      · simp [runOps, h1]
      · by_cases h2 : fails (FsOp.copyFolder loc (if toLower name = str "config"
            then pjoin pp kv.2 else pjoin (pjoin pp kv.2) mn))
        · simp [runOps, h1, h2]
        · simp [runOps, h1, h2]
    | none =>
      rw [resolveTrace_unmatched hm]
      simp only [resolveBepInExTree, hm]
      cases hr : (runOps fails (installFileOps rule pp mn files)).2 with
      | some e =>
        rw [runOps_append_err _ hr]
        simp [hr]
      | none =>
        rw [runOps_append_ok _ hr]
        rw [resolveDirs_runOps fails rule pp mn loc dirs]
        simp [hr]

theorem resolveDirs_runOps (fails : FsOp → Bool) (rule : RuleType) (pp mn loc : Str)
    (dirs : List (Str × FileTree)) :
    resolveDirs fails rule pp mn loc dirs =
      runOps fails ((resolveDirs noFail rule pp mn loc dirs).1) := by
  cases dirs with
  | nil => simp [resolveDirs, runOps]
  | cons d rest =>
    obtain ⟨dname, dtree⟩ := d
    rw [resolveDirsTrace_cons]
    simp only [resolveDirs]
    rw [resolve_runOps fails rule pp mn (pjoin loc dname) dname dtree]
    cases hr : (runOps fails (resolveTrace rule pp mn (pjoin loc dname) dname dtree)).2 with
    | some e =>
      rw [runOps_append_err _ hr]
      simp [hr]
    | none =>
      rw [runOps_append_ok _ hr]
      rw [resolveDirs_runOps fails rule pp mn loc rest]
      simp [hr]
end

mutual
theorem apply_runOps (fails : FsOp → Bool) (m : Str) (t : FileTree) (loc : Str)
    (mode : ModMode) :
    applyModMode fails m t loc mode = runOps fails (applyTrace m t loc mode) := by
  cases t with
  | node files dirs =>
    rw [applyTrace_eq]
    simp only [applyModMode]
    obtain ⟨ha1, ha2, ha3⟩ := applyDirs_runOps fails m loc mode dirs
    cases hr : (runOps fails ((applyDirs noFail m loc mode dirs).2.1)).2 with
    | some e =>
      rw [runOps_append_err _ hr]
      rw [hr] at ha2
      simp only [ha1, ha2, Option.isSome_some, if_true]
      exact Prod.ext rfl hr.symm
    | none =>
      rw [runOps_append_ok _ hr]
      rw [hr] at ha2
      simp only [ha1, ha2, Option.isSome_none, Bool.false_eq_true, if_false,
        ha3 hr, hr]

theorem applyDirs_runOps (fails : FsOp → Bool) (m loc : Str) (mode : ModMode)
    (dirs : List (Str × FileTree)) :
    (applyDirs fails m loc mode dirs).2.1 =
        (runOps fails ((applyDirs noFail m loc mode dirs).2.1)).1 ∧
      (applyDirs fails m loc mode dirs).2.2 =
        (runOps fails ((applyDirs noFail m loc mode dirs).2.1)).2 ∧
      ((runOps fails ((applyDirs noFail m loc mode dirs).2.1)).2 = none →
        (applyDirs fails m loc mode dirs).1 = (applyDirs noFail m loc mode dirs).1) := by
  cases dirs with
  | nil => simp [applyDirs, runOps]
  | cons d rest =>
    obtain ⟨dname, dtree⟩ := d
    rw [applyDirsTrace_cons]
    obtain ⟨ih1, ih2, ih3⟩ := applyDirs_runOps fails m loc mode rest
    by_cases hne : dname ≠ m
    · simp only [applyDirs, if_pos hne, if_neg (by simpa using hne), List.nil_append]
      rw [apply_runOps fails m dtree (pjoin loc dname) mode]
      cases hr : (runOps fails (applyTrace m dtree (pjoin loc dname) mode)).2 with
      | some e =>
        rw [runOps_append_err _ hr]
        simp [hr]
      | none =>
        rw [runOps_append_ok _ hr]
        simp only [hr, Option.isSome_none, Bool.false_eq_true, if_false]
        refine ⟨by rw [ih1], by rw [ih2], ?_⟩
        intro hnone
        rw [ih3 hnone]
        simp only [applyDirs, if_pos hne, apply_noFail_ok m dtree (pjoin loc dname) mode,
          Option.isSome_none, Bool.false_eq_true, if_false]
    · push_neg at hne
      simp only [applyDirs, if_neg (by simp [hne] : ¬ dname ≠ m), if_pos hne,
        List.nil_append]
      refine ⟨ih1, ih2, ?_⟩
      intro hnone
      rw [ih3 hnone]
end

/-! ### Membership in the uninstall passes -/

theorem mem_rootOps_iff {variants : List Str} {m pp : Str} {v : ProfileView} {op : FsOp} :
    op ∈ uninstallRootOps variants m pp v ↔
      (variants.find? (fun q => toLower q == toLower m)).isSome = true ∧
      ∃ n, (n, true) ∈ v.rootEntries ∧ ¬(toLower n = str "mods.yml") ∧
        op = FsOp.unlink (pjoin pp n) := by
  unfold uninstallRootOps
  by_cases hv : (variants.find? (fun q => toLower q == toLower m)).isSome = true
  · simp only [hv, if_true, List.mem_flatMap, true_and]
    constructor
    · rintro ⟨⟨n, b⟩, he, hop⟩
      cases b
      · simp at hop
      · by_cases hn : toLower n = str "mods.yml"
        · simp [hn] at hop
        · simp only [if_true, hn, if_false, List.mem_singleton] at hop
          exact ⟨n, he, hn, hop⟩
    · rintro ⟨n, hn, hny, rfl⟩
      exact ⟨(n, true), hn, by simp [hny]⟩
  · simp [hv]

theorem mem_subOps_iff {m pp : Str} {v : ProfileView} {op : FsOp} :
    op ∈ uninstallSubOps m pp v ↔
      v.bepInExExists = true ∧ ∃ e, (e, true) ∈ v.bepInExEntries ∧
        (m, true) ∈ v.subEntries e ∧
        op = FsOp.removeModDir (pjoin (pjoin (pjoin pp (str "BepInEx")) e) m) := by
  unfold uninstallSubOps
  by_cases hb : v.bepInExExists = true
  · simp only [hb, if_true, List.mem_flatMap, true_and]
    constructor
    · rintro ⟨⟨en, eb⟩, he, hop⟩
      cases eb
      · simp at hop
      · simp only [if_true, List.mem_flatMap] at hop
        obtain ⟨⟨fn, fb⟩, hf, hop2⟩ := hop
        by_cases hcond : fn = m ∧ fb = true
        · obtain ⟨rfl, rfl⟩ := hcond
          simp only [and_self, if_true, List.mem_singleton] at hop2
          exact ⟨en, he, hf, hop2⟩
        · rw [if_neg hcond] at hop2
          simp at hop2
    · rintro ⟨e, he, hm, rfl⟩
      refine ⟨(e, true), he, ?_⟩
      simp only [if_true, List.mem_flatMap]
      exact ⟨(m, true), hm, by simp⟩
  · simp [hb]

/-! ### Claim C3: round trip of the mode toggle -/

theorem enable_cond_iff {f e : Str} :
    strEndsWith (toLower (f ++ oldSuffix)) (e ++ oldSuffix) = true ↔ e <:+ toLower f := by
  rw [strEndsWith_iff, toLower_append, oldSuffix_toLower]
  constructor
  · exact suffix_append_cancel oldSuffix
  · exact suffix_append_same oldSuffix

theorem take_drop_oldSuffix (f : Str) :
    (f ++ oldSuffix).take ((f ++ oldSuffix).length - oldSuffix.length) = f := by
  rw [List.length_append, Nat.add_sub_cancel]
  exact List.take_left f oldSuffix

/-- C3: for a file whose name case-insensitively ends with a recognized
plugin extension, the disable pass renames it by appending `.old`, and the
enable pass renames the resulting name back by stripping `.old`; so
enable ∘ disable and disable ∘ enable are both identities on names, absent
external renames. -/
theorem mode_toggle_roundTrip (f ext : Str) (hm : ext ∈ modModeExtensions)
    (he : strEndsWith (toLower f) ext = true) :
    fileModeOps .DISABLED f = [.rename f (f ++ oldSuffix)] ∧
    fileModeOps .ENABLED (f ++ oldSuffix) = [.rename (f ++ oldSuffix) f] := by
  constructor
  · simp only [fileModeOps]
    exact filterMap_const_singleton _ _ _ ext_nodup ext hm he
      (fun b hb hpb =>
        ext_unique hb hm (strEndsWith_iff.mp hpb) (strEndsWith_iff.mp he))
  · simp only [fileModeOps, take_drop_oldSuffix]
    exact filterMap_const_singleton _ _ _ ext_nodup ext hm
      (enable_cond_iff.mpr (strEndsWith_iff.mp he))
      (fun b hb hpb =>
        ext_unique hb hm (enable_cond_iff.mp hpb) (strEndsWith_iff.mp he))

theorem mode_toggle_roundTrip_witness :
    fileModeOps .DISABLED (str "Foo.DLL") =
      [.rename (str "Foo.DLL") (str "Foo.DLL" ++ oldSuffix)] ∧
    fileModeOps .ENABLED (str "Foo.DLL" ++ oldSuffix) =
      [.rename (str "Foo.DLL" ++ oldSuffix) (str "Foo.DLL")] :=
  mode_toggle_roundTrip (str "Foo.DLL") (str ".dll") (by decide) (by decide)

/-! ### Claim C4: idempotence of the mode toggle -/

/-- C4: disabling a file already carrying a recognized extension plus `.old`
performs no rename (no bare recognized extension matches any more), and
enabling a file that does not end with a recognized extension plus `.old`
performs no rename. -/
theorem mode_toggle_idem (f : Str) :
    ((∃ ext ∈ modModeExtensions, strEndsWith (toLower f) (ext ++ oldSuffix) = true) →
      fileModeOps .DISABLED f = []) ∧
    ((∀ ext ∈ modModeExtensions, strEndsWith (toLower f) (ext ++ oldSuffix) = false) →
      fileModeOps .ENABLED f = []) := by
  constructor
  · rintro ⟨ext, hm, he⟩
    simp only [fileModeOps]
    apply filterMap_const_nil
    intro e' hm'
    by_contra hpb
    have h1 : e' <:+ toLower f := strEndsWith_iff.mp (by simpa using hpb)
    have h2 : (ext ++ oldSuffix) <:+ toLower f := strEndsWith_iff.mp he
    rcases suffixTotal h1 h2 with h | h
    · exact ext_not_suffix_extOld e' hm' ext hm h
    · exact extOld_not_suffix_ext ext hm e' hm' h
  · intro hall
    simp only [fileModeOps]
    exact filterMap_const_nil _ _ _ hall

theorem mode_toggle_idem_witness :
    fileModeOps .DISABLED (str "Foo.dll.old") = [] ∧
    fileModeOps .ENABLED (str "Readme.txt") = [] :=
  ⟨(mode_toggle_idem (str "Foo.dll.old")).1 ⟨str ".dll", by decide, by decide⟩,
   (mode_toggle_idem (str "Readme.txt")).2 (by decide)⟩

/-! ### Claim C9: fail-fast error propagation -/

/-- C9: in `resolveBepInExTree` and `applyModMode`, the first failing
operation is returned as the single error value, the operations actually
attempted are exactly the failure-free prefix followed by that operation,
and they are a prefix of the failure-free trace (nothing after the failure —
in particular no later sibling file or directory — is attempted).  On a
failure-free run the whole trace is performed and no error is returned. -/
theorem fail_fast (fails : FsOp → Bool) (rule : RuleType) (pp mn loc name m : Str)
    (t : FileTree) (mode : ModMode) :
    (∀ e, (resolveBepInExTree fails rule pp mn loc name t).2 = some e →
      fails e = true ∧ ∃ pre,
        (resolveBepInExTree fails rule pp mn loc name t).1 = pre ++ [e] ∧
        (∀ op ∈ pre, fails op = false) ∧
        (pre ++ [e]) <+: resolveTrace rule pp mn loc name t) ∧
    ((resolveBepInExTree fails rule pp mn loc name t).2 = none →
      (resolveBepInExTree fails rule pp mn loc name t).1 =
        resolveTrace rule pp mn loc name t) ∧
    (∀ e, (applyModMode fails m t loc mode).2 = some e →
      fails e = true ∧ ∃ pre, (applyModMode fails m t loc mode).1 = pre ++ [e] ∧
        (∀ op ∈ pre, fails op = false) ∧
        (pre ++ [e]) <+: applyTrace m t loc mode) ∧
    ((applyModMode fails m t loc mode).2 = none →
      (applyModMode fails m t loc mode).1 = applyTrace m t loc mode) := by
  rw [resolve_runOps, apply_runOps]
  exact ⟨fun e he => runOps_err he, fun h => (runOps_ok_trace h).1,
    fun e he => runOps_err he, fun h => (runOps_ok_trace h).1⟩

/-- The oracle for the fail-fast witness: exactly the copy of `L/a.dll`
fails. -/
def failsW : FsOp → Bool :=
  fun op => op == FsOp.copyFile (str "L/a.dll") (str "P/D/M/a.dll")

/-- A rule set with no folder rules and default path `D`, for witnesses. -/
def ruleW : RuleType := ⟨[], str "D"⟩

/-- A two-file tree for the fail-fast witness. -/
def treeW : FileTree := .node [str "L/a.dll", str "L/b.dll"] []

theorem fail_fast_witness :
    failsW (FsOp.copyFile (str "L/a.dll") (str "P/D/M/a.dll")) = true ∧
    ∃ pre,
      (resolveBepInExTree failsW ruleW (str "P") (str "M") (str "L") (str "root") treeW).1 =
        pre ++ [FsOp.copyFile (str "L/a.dll") (str "P/D/M/a.dll")] ∧
      (∀ op ∈ pre, failsW op = false) ∧
      (pre ++ [FsOp.copyFile (str "L/a.dll") (str "P/D/M/a.dll")]) <+:
        resolveTrace ruleW (str "P") (str "M") (str "L") (str "root") treeW :=
  (fail_fast failsW ruleW (str "P") (str "M") (str "L") (str "root") (str "X") treeW
    ModMode.DISABLED).1 (FsOp.copyFile (str "L/a.dll") (str "P/D/M/a.dll")) (by decide)

/-! ### Claim C5: destination of rule-matched folders -/

/-- C5: when a folder name case-insensitively matches a rule key, the whole
folder is copied to the profile joined with the rule's destination; the mod
name is appended as final component exactly when the folder name is not
(case-insensitively) `config`. -/
theorem config_dest (rule : RuleType) (pp mn loc name : Str) (files : List Str)
    (dirs : List (Str × FileTree)) (kv : Str × Str)
    (h : findMatchingRule rule.rules name = some kv) :
    (toLower name = str "config" →
      resolveTrace rule pp mn loc name (.node files dirs) =
        [FsOp.ensureDir (pjoin pp kv.2), FsOp.copyFolder loc (pjoin pp kv.2)]) ∧
    (¬(toLower name = str "config") →
      resolveTrace rule pp mn loc name (.node files dirs) =
        [FsOp.ensureDir (pjoin (pjoin pp kv.2) mn),
         FsOp.copyFolder loc (pjoin (pjoin pp kv.2) mn)]) := by
  refine ⟨fun hc => ?_, fun hc => ?_⟩ <;> rw [resolveTrace_matched h] <;> simp [hc]

/-- A rule set holding the `config` rule and a `plugins` rule. -/
def ruleC : RuleType :=
  ⟨[(str "config", str "BepInEx/config"), (str "plugins", str "BepInEx/plugins")],
   str "BepInEx/plugins"⟩

theorem config_dest_witness :
    resolveTrace ruleC (str "P") (str "Foo") (str "L/Config") (str "Config")
        (.node [str "L/Config/foo.cfg"] []) =
      [FsOp.ensureDir (pjoin (str "P") (str "BepInEx/config")),
       FsOp.copyFolder (str "L/Config") (pjoin (str "P") (str "BepInEx/config"))] ∧
    resolveTrace ruleC (str "P") (str "Foo") (str "L/PLUGINS") (str "PLUGINS")
        (.node [str "L/PLUGINS/Foo.dll"] []) =
      [FsOp.ensureDir (pjoin (pjoin (str "P") (str "BepInEx/plugins")) (str "Foo")),
       FsOp.copyFolder (str "L/PLUGINS")
         (pjoin (pjoin (str "P") (str "BepInEx/plugins")) (str "Foo"))] :=
  ⟨(config_dest ruleC (str "P") (str "Foo") (str "L/Config") (str "Config")
      [str "L/Config/foo.cfg"] [] (str "config", str "BepInEx/config") (by decide)).1
      (by decide),
   (config_dest ruleC (str "P") (str "Foo") (str "L/PLUGINS") (str "PLUGINS")
      [str "L/PLUGINS/Foo.dll"] [] (str "plugins", str "BepInEx/plugins") (by decide)).2
      (by decide)⟩

/-! ### Claim C6: `.mm.dll` routing -/

/-- C6: in a directory matching no rule, every direct file whose name
case-insensitively ends with `.mm.dll` is copied into
`profile/BepInEx/monomod/<mod>/<basename>`, and every other direct file is
copied into `profile/<defaultPath>/<mod>/<basename>`. -/
theorem mmdll_routing (rule : RuleType) (pp mn loc name : Str) (files : List Str)
    (dirs : List (Str × FileTree)) (h : findMatchingRule rule.rules name = none) :
    ∀ f ∈ files,
      (strEndsWith (toLower f) (str ".mm.dll") = true →
        FsOp.copyFile f (pjoin (pjoin (pjoin (pjoin pp (str "BepInEx")) (str "monomod")) mn)
            (basename f)) ∈
          resolveTrace rule pp mn loc name (.node files dirs)) ∧
      (strEndsWith (toLower f) (str ".mm.dll") = false →
        FsOp.copyFile f (pjoin (pjoin (pjoin pp rule.defaultPath) mn) (basename f)) ∈
          resolveTrace rule pp mn loc name (.node files dirs)) := by
  intro f hf
  rw [resolveTrace_unmatched h]
  constructor <;> intro hc <;>
    exact List.mem_append_left _
      (List.mem_flatMap.mpr ⟨f, hf, by simp [hc]⟩)

theorem mmdll_routing_witness :
    FsOp.copyFile (str "L/Foo.mm.dll")
        (pjoin (pjoin (pjoin (pjoin (str "P") (str "BepInEx")) (str "monomod")) (str "Foo"))
          (basename (str "L/Foo.mm.dll"))) ∈
      resolveTrace ruleW (str "P") (str "Foo") (str "L") (str "root")
        (.node [str "L/Foo.mm.dll", str "L/Bar.dll"] []) ∧
    FsOp.copyFile (str "L/Bar.dll")
        (pjoin (pjoin (pjoin (str "P") (str "D")) (str "Foo"))
          (basename (str "L/Bar.dll"))) ∈
      resolveTrace ruleW (str "P") (str "Foo") (str "L") (str "root")
        (.node [str "L/Foo.mm.dll", str "L/Bar.dll"] []) :=
  ⟨(mmdll_routing ruleW (str "P") (str "Foo") (str "L") (str "root")
      [str "L/Foo.mm.dll", str "L/Bar.dll"] [] (by decide) (str "L/Foo.mm.dll")
      (by decide)).1 (by decide),
   (mmdll_routing ruleW (str "P") (str "Foo") (str "L") (str "root")
      [str "L/Foo.mm.dll", str "L/Bar.dll"] [] (by decide) (str "L/Bar.dll")
      (by decide)).2 (by decide)⟩

/-! ### Claim C7: uninstall of a non-variant mod spares the profile root -/

/-- C7: when the mod's name matches no loader-variant package name,
`uninstallMod` unlinks nothing, and every deletion it performs removes a
directory strictly below the profile's `BepInEx` directory. -/
theorem uninstall_frame (variants : List Str) (m pp : Str) (v : ProfileView)
    (h : variants.find? (fun q => toLower q == toLower m) = none) :
    (∀ p, FsOp.unlink p ∉ uninstallMod variants m pp v) ∧
    ∀ op ∈ uninstallMod variants m pp v,
      ∃ e, op = FsOp.removeModDir (pjoin (pjoin (pjoin pp (str "BepInEx")) e) m) := by
  constructor
  · intro p hp
    rcases List.mem_append.mp hp with h1 | h2
    · obtain ⟨hv, -⟩ := mem_rootOps_iff.mp h1
      rw [h] at hv
      simp at hv
    · obtain ⟨-, e, -, -, heq⟩ := mem_subOps_iff.mp h2
      exact FsOp.noConfusion heq
  · intro op hop
    rcases List.mem_append.mp hop with h1 | h2
    · obtain ⟨hv, -⟩ := mem_rootOps_iff.mp h1
      rw [h] at hv
      simp at hv
    · obtain ⟨-, e, -, -, heq⟩ := mem_subOps_iff.mp h2
      exact ⟨e, heq⟩

/-- The profile view used by the uninstall witnesses. -/
def viewW : ProfileView :=
  ⟨[(str "a.txt", true), (str "winhttp.dll", true), (str "BepInEx", false)], true,
   [(str "plugins", true)], fun _ => [(str "SomeMod", true)]⟩

theorem uninstall_frame_witness :
    FsOp.unlink (pjoin (str "P") (str "a.txt")) ∉
      uninstallMod [str "BepInEx-BepInExPack"] (str "SomeMod") (str "P") viewW :=
  (uninstall_frame [str "BepInEx-BepInExPack"] (str "SomeMod") (str "P") viewW
    (by decide)).1 (pjoin (str "P") (str "a.txt"))

/-! ### Claim C8: uninstall of a loader-variant mod and the reserved file -/

/-- The loader-variant list used by the C8 counterexample and witness. -/
def variants8 : List Str := [str "Loader"]

/-- The profile view of the C8 counterexample: the profile root holds one
file named `MODS.YML`. -/
def view8 : ProfileView := ⟨[(str "MODS.YML", true)], false, [], fun _ => []⟩

/-- C8 counterexample: for a loader-variant mod, a root file named
`MODS.YML` is not the reserved filename `mods.yml`, yet `uninstallMod`
deletes nothing at all — the reservation is case-insensitive, not the exact
filename the claim states. -/
theorem uninstall_variant_root_counterexample :
    (variants8.find? (fun q => toLower q == toLower (str "loader"))).isSome = true ∧
    (str "MODS.YML") ≠ (str "mods.yml") ∧
    (str "MODS.YML", true) ∈ view8.rootEntries ∧
    uninstallMod variants8 (str "loader") (str "P") view8 = [] := by decide

/-- C8 (amended): for a loader-variant mod, `uninstallMod` unlinks every
root entry that is a file whose name is not case-insensitively `mods.yml`,
and never unlinks a root path whose final name case-insensitively equals
`mods.yml`. -/
theorem uninstall_variant_root (variants : List Str) (m pp : Str) (v : ProfileView)
    (h : (variants.find? (fun q => toLower q == toLower m)).isSome = true) :
    (∀ n, (n, true) ∈ v.rootEntries → ¬(toLower n = str "mods.yml") →
      FsOp.unlink (pjoin pp n) ∈ uninstallMod variants m pp v) ∧
    (∀ n, toLower n = str "mods.yml" →
      FsOp.unlink (pjoin pp n) ∉ uninstallMod variants m pp v) := by
  constructor
  · intro n hn hny
    exact List.mem_append_left _ (mem_rootOps_iff.mpr ⟨h, n, hn, hny, rfl⟩)
  · intro n hny hmem
    rcases List.mem_append.mp hmem with h1 | h2
    · obtain ⟨-, n', hn', hny', heq⟩ := mem_rootOps_iff.mp h1
      simp only [FsOp.unlink.injEq] at heq
      rw [pjoin_inj_right heq] at hny
      exact hny' hny
    · obtain ⟨-, e, -, -, heq⟩ := mem_subOps_iff.mp h2
      exact FsOp.noConfusion heq

/-- The profile view of the C8 witness. -/
def view8b : ProfileView :=
  ⟨[(str "winhttp.dll", true), (str "Mods.yml", true)], false, [], fun _ => []⟩

theorem uninstall_variant_root_witness :
    FsOp.unlink (pjoin (str "P") (str "winhttp.dll")) ∈
      uninstallMod variants8 (str "loader") (str "P") view8b ∧
    FsOp.unlink (pjoin (str "P") (str "Mods.yml")) ∉
      uninstallMod variants8 (str "loader") (str "P") view8b :=
  ⟨(uninstall_variant_root variants8 (str "loader") (str "P") view8b (by decide)).1
      (str "winhttp.dll") (by decide) (by decide),
   (uninstall_variant_root variants8 (str "loader") (str "P") view8b (by decide)).2
      (str "Mods.yml") (by decide)⟩

/-! ### Claim C10: the loader-root pass deletes only regular files -/

/-- C10: for every mod — loader variant or not — no entry of the profile
root that is a directory (for instance `BepInEx` itself) is ever unlinked:
the root pass considers only entries whose `lstat` says they are files. -/
theorem uninstall_root_dirs_untouched (variants : List Str) (m pp : Str) (v : ProfileView)
    (hnd : (v.rootEntries.map Prod.fst).Nodup) :
    ∀ n, (n, false) ∈ v.rootEntries →
      FsOp.unlink (pjoin pp n) ∉ uninstallMod variants m pp v := by
  intro n hn hmem
  rcases List.mem_append.mp hmem with h1 | h2
  · obtain ⟨-, n', hn', -, heq⟩ := mem_rootOps_iff.mp h1
    simp only [FsOp.unlink.injEq] at heq
    rw [pjoin_inj_right heq] at hn
    have := List.inj_on_of_nodup_map hnd hn' hn rfl
    simp at this
  · obtain ⟨-, e, -, -, heq⟩ := mem_subOps_iff.mp h2
    exact FsOp.noConfusion heq

theorem uninstall_root_dirs_untouched_witness :
    FsOp.unlink (pjoin (str "P") (str "BepInEx")) ∉
      uninstallMod [str "Loader"] (str "loader") (str "P") viewW :=
  uninstall_root_dirs_untouched [str "Loader"] (str "loader") (str "P") viewW
    (by decide) (str "BepInEx") (by decide)

/-! ### Claim C1: which comparisons are case-insensitive -/

/-- C1 counterexample: the mod-directory matching of `applyModMode` and the
mod-subfolder matching of `uninstallMod` are case-sensitive.  A directory
`foo` of mod `FOO` is not matched (no rename happens), while `FOO` is; a
subfolder `foo` of mod `Foo` is not deleted, while `Foo` is — although the
names agree up to case in both pairs. -/
theorem case_handling_counterexample :
    toLower (str "foo") = toLower (str "FOO") ∧
    applyTrace (str "FOO") (.node [] [(str "foo", .node [str "p.dll"] [])]) (str "L")
      .DISABLED = [] ∧
    applyTrace (str "FOO") (.node [] [(str "FOO", .node [str "p.dll"] [])]) (str "L")
      .DISABLED = [FsOp.rename (str "p.dll") (str "p.dll" ++ oldSuffix)] ∧
    toLower (str "foo") = toLower (str "Foo") ∧
    uninstallMod [] (str "Foo") (str "P")
      ⟨[], true, [(str "plugins", true)], fun _ => [(str "foo", true)]⟩ = [] ∧
    uninstallMod [] (str "Foo") (str "P")
      ⟨[], true, [(str "plugins", true)], fun _ => [(str "Foo", true)]⟩ =
      [FsOp.removeModDir (pjoin (pjoin (pjoin (str "P") (str "BepInEx")) (str "plugins"))
        (str "Foo"))] := by decide

/-- C1 (amended): rule-folder matching in install, extension matching in
enable/disable, and the loader-variant lookup are case-insensitive — they
depend only on the lowercased strings; by contrast, the mod-directory
matching of `applyModMode` (which files get collected for renaming) and the
mod-subfolder matching of `uninstallMod` (which folders get removed) use
exact, case-sensitive string equality with the mod's name. -/
theorem case_handling (rules : List (Str × Str)) (variants : List Str) :
    (∀ f1 f2, toLower f1 = toLower f2 →
      findMatchingRule rules f1 = findMatchingRule rules f2) ∧
    (∀ g1 g2, toLower g1 = toLower g2 →
      modModeExtensions.filter (fun ext => strEndsWith (toLower g1) ext) =
        modModeExtensions.filter (fun ext => strEndsWith (toLower g2) ext) ∧
      modModeExtensions.filter (fun ext => strEndsWith (toLower g1) (ext ++ oldSuffix)) =
        modModeExtensions.filter (fun ext => strEndsWith (toLower g2) (ext ++ oldSuffix))) ∧
    (∀ m1 m2, toLower m1 = toLower m2 →
      variants.find? (fun q => toLower q == toLower m1) =
        variants.find? (fun q => toLower q == toLower m2)) ∧
    (∀ m pp (v : ProfileView) op, op ∈ uninstallSubOps m pp v →
      ∃ e, op = FsOp.removeModDir (pjoin (pjoin (pjoin pp (str "BepInEx")) e) m)) ∧
    (∀ m loc mode (dirs : List (Str × FileTree)),
      (applyDirs noFail m loc mode dirs).1 =
        dirs.flatMap (fun d => if d.1 = m then getRecursiveFiles d.2 else [])) := by
  refine ⟨?_, ?_, ?_, ?_, ?_⟩
  · intro f1 f2 h
    simp [findMatchingRule, h]
  · intro g1 g2 h
    rw [h]
    exact ⟨rfl, rfl⟩
  · intro m1 m2 h
    rw [h]
  · intro m pp v op hop
    obtain ⟨-, e, -, -, heq⟩ := mem_subOps_iff.mp hop
    exact ⟨e, heq⟩
  · intro m loc mode dirs
    exact applyDirs_collected

theorem case_handling_witness :
    findMatchingRule ruleC.rules (str "PLUGINS") =
      findMatchingRule ruleC.rules (str "plugins") ∧
    ([str "Loader"].find? (fun q => toLower q == toLower (str "LOADER")) =
      [str "Loader"].find? (fun q => toLower q == toLower (str "loader"))) :=
  ⟨(case_handling ruleC.rules [str "Loader"]).1 (str "PLUGINS") (str "plugins") (by decide),
   (case_handling ruleC.rules [str "Loader"]).2.2.1 (str "LOADER") (str "loader")
     (by decide)⟩

/-! ### Well-formed trees: file paths are location-consistent -/

/-- The name of a direct child path of `loc`: everything after `loc/`. -/
def tailName (loc f : Str) : Str := f.drop (loc.length + 1)

mutual
/-- A `FileTree` as `FileTree.buildFromLocation loc` produces it: each file
at a node is `loc/<name>` for a separator-free name that is not also a
directory name, `readdir` names are distinct, and subtrees are rooted at
`loc/<dirname>`. -/
def wfTree : Str → FileTree → Bool
  | loc, .node files dirs =>
    files.all (fun f =>
      decide ((loc ++ [sep]) <+: f) && decide (sep ∉ tailName loc f) &&
      decide (tailName loc f ∉ dirs.map Prod.fst)) &&
    decide files.Nodup && decide (dirs.map Prod.fst).Nodup && wfDirs loc dirs
def wfDirs : Str → List (Str × FileTree) → Bool
  | _, [] => true
  | loc, (dname, dtree) :: rest =>
    decide (sep ∉ dname) && wfTree (pjoin loc dname) dtree && wfDirs loc rest
end

theorem wf_file_shape {loc : Str} {files : List Str} {dirs : List (Str × FileTree)}
    (hwf : wfTree loc (.node files dirs) = true) {f : Str} (hf : f ∈ files) :
    ∃ n, f = pjoin loc n ∧ sep ∉ n ∧ n ∉ dirs.map Prod.fst := by
  simp only [wfTree, Bool.and_eq_true, List.all_eq_true, decide_eq_true_eq] at hwf
  obtain ⟨⟨hpre, hsep⟩, hnd⟩ := hwf.1.1.1 f hf
  obtain ⟨t, ht⟩ := hpre
  have htail : tailName loc f = t := by
    rw [tailName, ← ht, show loc.length + 1 = (loc ++ [sep]).length by simp,
      List.drop_left]
  refine ⟨t, ?_, htail ▸ hsep, htail ▸ hnd⟩
  rw [pjoin_eq, ht]

theorem wf_files_nodup {loc : Str} {files : List Str} {dirs : List (Str × FileTree)}
    (hwf : wfTree loc (.node files dirs) = true) : files.Nodup := by
  simp only [wfTree, Bool.and_eq_true, decide_eq_true_eq] at hwf
  exact hwf.1.1.2

theorem wf_dnames_nodup {loc : Str} {files : List Str} {dirs : List (Str × FileTree)}
    (hwf : wfTree loc (.node files dirs) = true) : (dirs.map Prod.fst).Nodup := by
  simp only [wfTree, Bool.and_eq_true, decide_eq_true_eq] at hwf
  exact hwf.1.2

theorem wf_dirs_of {loc : Str} {files : List Str} {dirs : List (Str × FileTree)}
    (hwf : wfTree loc (.node files dirs) = true) : wfDirs loc dirs = true := by
  simp only [wfTree, Bool.and_eq_true] at hwf
  exact hwf.2

theorem wfDirs_unpack {loc dn : Str} {dt : FileTree} {rest : List (Str × FileTree)}
    (h : wfDirs loc ((dn, dt) :: rest) = true) :
    sep ∉ dn ∧ wfTree (pjoin loc dn) dt = true ∧ wfDirs loc rest = true := by
  simp only [wfDirs, Bool.and_eq_true, decide_eq_true_eq] at h
  exact ⟨h.1.1, h.1.2, h.2⟩

theorem wfDirs_mem {loc : Str} {dirs : List (Str × FileTree)}
    (h : wfDirs loc dirs = true) {dn : Str} {dt : FileTree} (hmem : (dn, dt) ∈ dirs) :
    sep ∉ dn ∧ wfTree (pjoin loc dn) dt = true := by
  induction dirs with
  | nil => simp at hmem
  | cons d rest ih =>
    obtain ⟨dn', dt'⟩ := d
    obtain ⟨h1, h2, h3⟩ := wfDirs_unpack h
    rcases List.mem_cons.mp hmem with heq | hmem'
    · obtain ⟨rfl, rfl⟩ := Prod.mk.injEq .. ▸ heq
      exact ⟨h1, h2⟩
    · exact ih h3 hmem'

/-! ### Counting how often a file is handled by an install trace -/

/-- Is `op` an individual copy whose source is `f`? -/
def isCopyFileSrc (f : Str) : FsOp → Bool
  | FsOp.copyFile s _ => decide (s = f)
  | _ => false

/-- Is `op` a whole-folder copy whose source folder contains `p`
(or is `p` itself)? -/
def coversB (p : Str) : FsOp → Bool
  | FsOp.copyFolder s _ => decide (s = p) || decide (under s p)
  | _ => false

/-- How often a trace handles the file `f`: individual copies of `f` plus
whole-folder copies of a folder containing `f`. -/
def handledCount (tr : List FsOp) (f : Str) : Nat :=
  tr.countP (isCopyFileSrc f) + tr.countP (coversB f)

theorem isCopyFileSrc_true {f : Str} {op : FsOp} (h : isCopyFileSrc f op = true) :
    ∃ d, op = FsOp.copyFile f d := by
  cases op with
  | copyFile s d =>
    simp only [isCopyFileSrc, decide_eq_true_eq] at h
    exact ⟨d, by rw [h]⟩
  | ensureDir p => simp [isCopyFileSrc] at h
  | copyFolder s d => simp [isCopyFileSrc] at h
  | rename s d => simp [isCopyFileSrc] at h
  | unlink p => simp [isCopyFileSrc] at h
  | removeModDir p => simp [isCopyFileSrc] at h

theorem coversB_true {p : Str} {op : FsOp} (h : coversB p op = true) :
    ∃ s d, op = FsOp.copyFolder s d ∧ (s = p ∨ under s p) := by
  cases op with
  | copyFolder s d =>
    refine ⟨s, d, rfl, ?_⟩
    simpa [coversB] using h
  | ensureDir q => simp [coversB] at h
  | copyFile s d => simp [coversB] at h
  | rename s d => simp [coversB] at h
  | unlink q => simp [coversB] at h
  | removeModDir q => simp [coversB] at h

theorem installFileOps_shape {rule : RuleType} {pp mn : Str} {files : List Str} {op : FsOp}
    (h : op ∈ installFileOps rule pp mn files) :
    (∀ s d, op = FsOp.copyFile s d → s ∈ files) ∧
    (∀ s d, ¬ op = FsOp.copyFolder s d) := by
  obtain ⟨f, hf, hmem⟩ := List.mem_flatMap.mp h
  simp only [List.mem_cons, List.mem_singleton, List.not_mem_nil, or_false] at hmem
  rcases hmem with rfl | rfl
  · exact ⟨fun s d heq => FsOp.noConfusion heq, fun s d heq => FsOp.noConfusion heq⟩
  · refine ⟨fun s d heq => ?_, fun s d heq => FsOp.noConfusion heq⟩
    cases heq
    exact hf

theorem countP_installFileOps_src {rule : RuleType} {pp mn : Str} (files : List Str)
    (f : Str) :
    (installFileOps rule pp mn files).countP (isCopyFileSrc f) =
      files.countP (fun g => decide (g = f)) := by
  induction files with
  | nil => simp [installFileOps]
  | cons g rest ih =>
    rw [installFileOps, List.flatMap_cons, List.countP_append, ← installFileOps, ih]
    by_cases hgf : g = f
    · subst hgf
      simp [isCopyFileSrc, List.countP_cons, Nat.add_comm]
    · simp [isCopyFileSrc, List.countP_cons, hgf]

theorem countP_eq_one_of_nodup_mem {l : List Str} {f : Str} (hnd : l.Nodup)
    (hmem : f ∈ l) : (l.countP fun g => decide (g = f)) = 1 := by
  induction l with
  | nil => simp at hmem
  | cons x xs ih =>
    obtain ⟨hx, hxs⟩ := List.nodup_cons.mp hnd
    by_cases hxf : x = f
    · subst hxf
      have hz : (xs.countP fun g => decide (g = x)) = 0 := by
        apply List.countP_eq_zero.mpr
        intro g hg hpg
        rw [decide_eq_true_eq] at hpg
        exact hx (hpg ▸ hg)
      simp [List.countP_cons, hz]
    · rcases List.mem_cons.mp hmem with heq | hmem'
      · exact absurd heq.symm hxf
      · simp [List.countP_cons, ih hxs hmem', hxf]

theorem countP_eq_zero_of_not_mem {l : List Str} {f : Str} (h : f ∉ l) :
    (l.countP fun g => decide (g = f)) = 0 := by
  apply List.countP_eq_zero.mpr
  intro g hg hpg
  rw [decide_eq_true_eq] at hpg
  exact h (hpg ▸ hg)

theorem countP_installFileOps_cover {rule : RuleType} {pp mn : Str} (files : List Str)
    (p : Str) :
    (installFileOps rule pp mn files).countP (coversB p) = 0 := by
  apply List.countP_eq_zero.mpr
  intro op hop
  intro hpb
  obtain ⟨s, d, rfl, -⟩ := coversB_true hpb
  exact (installFileOps_shape hop).2 s d rfl

/-! ### Files of a well-formed tree live under its location -/

mutual
theorem recFiles_under (t : FileTree) (loc : Str) (hwf : wfTree loc t = true) :
    ∀ f ∈ getRecursiveFiles t, under loc f := by
  cases t with
  | node files dirs =>
    intro f hf
    rcases List.mem_append.mp (by simpa [getRecursiveFiles] using hf) with h | h
    · obtain ⟨n, rfl, -, -⟩ := wf_file_shape hwf h
      exact under_pjoin loc n
    · obtain ⟨dn, dt, -, -, hu⟩ := recFilesL_branch dirs loc (wf_dirs_of hwf) f h
      exact under_of_branch hu

theorem recFilesL_branch (dirs : List (Str × FileTree)) (loc : Str)
    (hwfd : wfDirs loc dirs = true) :
    ∀ f ∈ getRecursiveFilesL dirs,
      ∃ dn dt, (dn, dt) ∈ dirs ∧ f ∈ getRecursiveFiles dt ∧ under (pjoin loc dn) f := by
  cases dirs with
  | nil =>
    intro f hf
    simp [getRecursiveFilesL] at hf
  | cons d rest =>
    obtain ⟨dn, dt⟩ := d
    intro f hf
    obtain ⟨hsep, hwfb, hwfr⟩ := wfDirs_unpack hwfd
    rcases List.mem_append.mp (by simpa [getRecursiveFilesL] using hf) with h | h
    · exact ⟨dn, dt, by simp, h, recFiles_under dt (pjoin loc dn) hwfb f h⟩
    · obtain ⟨dn', dt', hmem, hfin, hu⟩ := recFilesL_branch rest loc hwfr f h
      exact ⟨dn', dt', by simp [hmem], hfin, hu⟩
end

/-! ### Sources appearing in an install trace -/

theorem mem_dirsTrace {rule : RuleType} {pp mn loc : Str} {dirs : List (Str × FileTree)}
    {op : FsOp} (h : op ∈ (resolveDirs noFail rule pp mn loc dirs).1) :
    ∃ dn dt, (dn, dt) ∈ dirs ∧ op ∈ resolveTrace rule pp mn (pjoin loc dn) dn dt := by
  rw [resolveDirsTrace_flatMap] at h
  obtain ⟨⟨dn, dt⟩, hmem, hop⟩ := List.mem_flatMap.mp h
  exact ⟨dn, dt, hmem, hop⟩

mutual
theorem trace_src_shape (rule : RuleType) (pp mn : Str) (t : FileTree) (loc name : Str)
    (op : FsOp) (hop : op ∈ resolveTrace rule pp mn loc name t) :
    (∀ s d, op = FsOp.copyFile s d → s ∈ getRecursiveFiles t) ∧
    (∀ s d, op = FsOp.copyFolder s d → s = loc ∨ under loc s) := by
  cases t with
  | node files dirs =>
    cases hm : findMatchingRule rule.rules name with
    | some kv =>
      rw [resolveTrace_matched hm] at hop
      rcases List.mem_cons.mp hop with rfl | hop2
      · exact ⟨fun s d heq => FsOp.noConfusion heq, fun s d heq => FsOp.noConfusion heq⟩
      · rcases List.mem_singleton.mp hop2 with rfl
        refine ⟨fun s d heq => FsOp.noConfusion heq, fun s d heq => ?_⟩
        cases heq
        exact Or.inl rfl
    | none =>
      rw [resolveTrace_unmatched hm] at hop
      rcases List.mem_append.mp hop with h | h
      · obtain ⟨h1, h2⟩ := installFileOps_shape h
        refine ⟨fun s d heq => ?_, fun s d heq => absurd heq (h2 s d)⟩
        simp only [getRecursiveFiles]
        exact List.mem_append_left _ (h1 s d heq)
      · obtain ⟨dn, dt, hmem, hop2⟩ := mem_dirsTrace h
        have hsub := trace_src_shapeL rule pp mn dirs loc op (by
          rw [resolveDirsTrace_flatMap]
          exact List.mem_flatMap.mpr ⟨(dn, dt), hmem, hop2⟩)
        refine ⟨fun s d heq => ?_, fun s d heq => Or.inr (hsub.2 s d heq)⟩
        simp only [getRecursiveFiles]
        exact List.mem_append_right _ (hsub.1 s d heq)

theorem trace_src_shapeL (rule : RuleType) (pp mn : Str) (dirs : List (Str × FileTree))
    (loc : Str) (op : FsOp) (hop : op ∈ (resolveDirs noFail rule pp mn loc dirs).1) :
    (∀ s d, op = FsOp.copyFile s d → s ∈ getRecursiveFilesL dirs) ∧
    (∀ s d, op = FsOp.copyFolder s d → under loc s) := by
  cases dirs with
  | nil =>
    rw [resolveDirsTrace_nil] at hop
    simp at hop
  | cons d rest =>
    obtain ⟨dn, dt⟩ := d
    rw [resolveDirsTrace_cons] at hop
    rcases List.mem_append.mp hop with h | h
    · obtain ⟨h1, h2⟩ := trace_src_shape rule pp mn dt (pjoin loc dn) dn op h
      refine ⟨fun s d heq => ?_, fun s d heq => ?_⟩
      · simp only [getRecursiveFilesL]
        exact List.mem_append_left _ (h1 s d heq)
      · rcases h2 s d heq with rfl | hu
        · exact under_pjoin loc dn
        · exact under_of_branch hu
    · obtain ⟨h1, h2⟩ := trace_src_shapeL rule pp mn rest loc op h
      refine ⟨fun s d heq => ?_, h2⟩
      simp only [getRecursiveFilesL]
      exact List.mem_append_right _ (h1 s d heq)
end

/-- A whole-folder copy in the trace rooted at `b` only covers paths at or
under `b`. -/
theorem cover_region {rule : RuleType} {pp mn b name : Str} {dt : FileTree} {p : Str}
    {op : FsOp} (hop : op ∈ resolveTrace rule pp mn b name dt)
    (hc : coversB p op = true) : b = p ∨ under b p := by
  obtain ⟨s, d, rfl, hsp⟩ := coversB_true hc
  rcases (trace_src_shape rule pp mn dt b name _ hop).2 s d rfl with rfl | hu
  · exact hsp.imp id id
  · rcases hsp with rfl | hsp
    · exact Or.inr hu
    · exact Or.inr (under_trans_left hu hsp)

theorem trace_count_src_zero {rule : RuleType} {pp mn b name : Str} {dt : FileTree}
    {f : Str} (hwfb : wfTree b dt = true) (hdisj : ¬ under b f) :
    (resolveTrace rule pp mn b name dt).countP (isCopyFileSrc f) = 0 := by
  apply List.countP_eq_zero.mpr
  intro op hop hpb
  obtain ⟨d, rfl⟩ := isCopyFileSrc_true hpb
  exact hdisj (recFiles_under dt b hwfb f
    ((trace_src_shape rule pp mn dt b name _ hop).1 f d rfl))

theorem trace_count_cover_zero {rule : RuleType} {pp mn b name : Str} {dt : FileTree}
    {f : Str} (h1 : ¬ b = f) (h2 : ¬ under b f) :
    (resolveTrace rule pp mn b name dt).countP (coversB f) = 0 := by
  apply List.countP_eq_zero.mpr
  intro op hop hpb
  rcases cover_region hop hpb with h | h
  · exact h1 h
  · exact h2 h

theorem handledCount_append (a b : List FsOp) (f : Str) :
    handledCount (a ++ b) f = handledCount a f + handledCount b f := by
  simp only [handledCount, List.countP_append]
  omega

/-- If `f` lies at or under no directory of `dirs`, the directory loop's
trace neither copies `f` individually nor covers it with a folder copy. -/
theorem dirsTrace_count_zero {rule : RuleType} {pp mn loc : Str}
    {dirs : List (Str × FileTree)} {f : Str} (hwfd : wfDirs loc dirs = true)
    (hdisj : ∀ dn dt, (dn, dt) ∈ dirs → ¬ pjoin loc dn = f ∧ ¬ under (pjoin loc dn) f) :
    ((resolveDirs noFail rule pp mn loc dirs).1).countP (isCopyFileSrc f) = 0 ∧
    ((resolveDirs noFail rule pp mn loc dirs).1).countP (coversB f) = 0 := by
  constructor <;> apply List.countP_eq_zero.mpr <;> intro op hop hpb
  · obtain ⟨dn, dt, hmem, hop2⟩ := mem_dirsTrace hop
    obtain ⟨d, rfl⟩ := isCopyFileSrc_true hpb
    have hin := (trace_src_shape rule pp mn dt (pjoin loc dn) dn _ hop2).1 f d rfl
    exact (hdisj dn dt hmem).2
      (recFiles_under dt (pjoin loc dn) (wfDirs_mem hwfd hmem).2 f hin)
  · obtain ⟨dn, dt, hmem, hop2⟩ := mem_dirsTrace hop
    rcases cover_region hop2 hpb with h | h
    · exact (hdisj dn dt hmem).1 h
    · exact (hdisj dn dt hmem).2 h

mutual
/-- Every file of a well-formed tree is handled exactly once by the
failure-free install trace: either by exactly one individual copy, or by
exactly one whole-folder copy of a folder containing it. -/
theorem handled_once (rule : RuleType) (pp mn : Str) (t : FileTree) (loc name : Str)
    (hwf : wfTree loc t = true) :
    ∀ f ∈ getRecursiveFiles t,
      handledCount (resolveTrace rule pp mn loc name t) f = 1 := by
  cases t with
  | node files dirs =>
    intro f hf
    cases hm : findMatchingRule rule.rules name with
    | some kv =>
      rw [resolveTrace_matched hm]
      have hu : under loc f := recFiles_under _ loc hwf f hf
      simp [handledCount, List.countP_cons, isCopyFileSrc, coversB, hu]
    | none =>
      rw [resolveTrace_unmatched hm, handledCount_append]
      rcases List.mem_append.mp (by simpa [getRecursiveFiles] using hf) with h | h
      · obtain ⟨n, hfeq, hsepn, hnd⟩ := wf_file_shape hwf h
        have hA : handledCount (installFileOps rule pp mn files) f = 1 := by
          rw [handledCount, countP_installFileOps_src, countP_installFileOps_cover,
            countP_eq_one_of_nodup_mem (wf_files_nodup hwf) h]
        have hdisj : ∀ dn dt, (dn, dt) ∈ dirs →
            ¬ pjoin loc dn = f ∧ ¬ under (pjoin loc dn) f := by
          intro dn dt hmem
          subst hfeq
          constructor
          · intro heq
            exact hnd (pjoin_inj_right heq.symm ▸ List.mem_map.mpr ⟨(dn, dt), hmem, rfl⟩)
          · intro hu
            exact file_not_under_branch hsepn hu
        have hB := @dirsTrace_count_zero rule pp mn loc dirs f (wf_dirs_of hwf) hdisj
        rw [hA, handledCount, hB.1, hB.2]
      · have hB := handled_onceL rule pp mn dirs loc (wf_dirs_of hwf)
          (wf_dnames_nodup hwf) f h
        obtain ⟨dn0, dt0, hmem0, -, hu0⟩ :=
          recFilesL_branch dirs loc (wf_dirs_of hwf) f h
        have hsep0 : sep ∉ dn0 := (wfDirs_mem (wf_dirs_of hwf) hmem0).1
        have hA : handledCount (installFileOps rule pp mn files) f = 0 := by
          have hnm : f ∉ files := by
            intro hmemf
            obtain ⟨n, hfeq, hsepn, -⟩ := wf_file_shape hwf hmemf
            exact file_not_under_branch hsepn (hfeq ▸ hu0)
          rw [handledCount, countP_installFileOps_src, countP_installFileOps_cover,
            countP_eq_zero_of_not_mem hnm]
        rw [hA, hB]

theorem handled_onceL (rule : RuleType) (pp mn : Str) (dirs : List (Str × FileTree))
    (loc : Str) (hwfd : wfDirs loc dirs = true) (hnd : (dirs.map Prod.fst).Nodup) :
    ∀ f ∈ getRecursiveFilesL dirs,
      handledCount ((resolveDirs noFail rule pp mn loc dirs).1) f = 1 := by
  cases dirs with
  | nil =>
    intro f hf
    simp [getRecursiveFilesL] at hf
  | cons d rest =>
    obtain ⟨dn, dt⟩ := d
    intro f hf
    obtain ⟨hsep, hwfb, hwfr⟩ := wfDirs_unpack hwfd
    have hnd2 : (dn :: rest.map Prod.fst).Nodup := by
      rw [List.map_cons] at hnd
      exact hnd
    have hdn_notin : dn ∉ rest.map Prod.fst := (List.nodup_cons.mp hnd2).1
    rw [resolveDirsTrace_cons, handledCount_append]
    rcases List.mem_append.mp (by simpa [getRecursiveFilesL] using hf) with h | h
    · have hbr := handled_once rule pp mn dt (pjoin loc dn) dn hwfb f h
      have hu : under (pjoin loc dn) f := recFiles_under dt (pjoin loc dn) hwfb f h
      have hdisj : ∀ dn' dt', (dn', dt') ∈ rest →
          ¬ pjoin loc dn' = f ∧ ¬ under (pjoin loc dn') f := by
        intro dn' dt' hmem'
        have hsep' : sep ∉ dn' := (wfDirs_mem hwfr hmem').1
        have hne' : dn' ≠ dn := by
          intro heq
          exact hdn_notin (heq ▸ List.mem_map.mpr ⟨(dn', dt'), hmem', rfl⟩)
        constructor
        · intro heq
          exact file_not_under_branch hsep' (heq ▸ hu)
        · intro hu'
          exact branch_disjoint hsep' hsep hne' hu' hu
      have hrest := @dirsTrace_count_zero rule pp mn loc rest f hwfr hdisj
      rw [hbr, handledCount, hrest.1, hrest.2]
    · have hrest := handled_onceL rule pp mn rest loc hwfr
        (List.nodup_cons.mp hnd2).2 f h
      obtain ⟨dn0, dt0, hmem0, -, hu0⟩ := recFilesL_branch rest loc hwfr f h
      have hsep0 : sep ∉ dn0 := (wfDirs_mem hwfr hmem0).1
      have hne0 : dn ≠ dn0 := by
        intro heq
        exact hdn_notin (heq ▸ List.mem_map.mpr ⟨(dn0, dt0), hmem0, rfl⟩)
      have hb1 : (resolveTrace rule pp mn (pjoin loc dn) dn dt).countP
          (isCopyFileSrc f) = 0 :=
        trace_count_src_zero hwfb (fun hu => branch_disjoint hsep hsep0 hne0 hu hu0)
      have hb2 : (resolveTrace rule pp mn (pjoin loc dn) dn dt).countP
          (coversB f) = 0 := by
        apply trace_count_cover_zero
        · intro heq
          exact file_not_under_branch hsep (heq ▸ hu0)
        · intro hu
          exact branch_disjoint hsep hsep0 hne0 hu hu0
      rw [hrest, handledCount, hb1, hb2]
end

mutual
/-- No path is covered by more than one whole-folder copy: a rule-matched
folder is opaque, so folder copies are never nested or repeated. -/
theorem cover_le_one (rule : RuleType) (pp mn : Str) (t : FileTree) (loc name : Str)
    (hwf : wfTree loc t = true) :
    ∀ p, (resolveTrace rule pp mn loc name t).countP (coversB p) ≤ 1 := by
  cases t with
  | node files dirs =>
    intro p
    cases hm : findMatchingRule rule.rules name with
    | some kv =>
      rw [resolveTrace_matched hm]
      simp only [List.countP_cons, List.countP_nil, coversB]
      split <;> simp
    | none =>
      rw [resolveTrace_unmatched hm, List.countP_append,
        countP_installFileOps_cover files p, Nat.zero_add]
      exact cover_le_oneL rule pp mn dirs loc (wf_dirs_of hwf) (wf_dnames_nodup hwf) p

theorem cover_le_oneL (rule : RuleType) (pp mn : Str) (dirs : List (Str × FileTree))
    (loc : Str) (hwfd : wfDirs loc dirs = true) (hnd : (dirs.map Prod.fst).Nodup) :
    ∀ p, ((resolveDirs noFail rule pp mn loc dirs).1).countP (coversB p) ≤ 1 := by
  cases dirs with
  | nil =>
    intro p
    rw [resolveDirsTrace_nil]
    simp
  | cons d rest =>
    obtain ⟨dn, dt⟩ := d
    intro p
    obtain ⟨hsep, hwfb, hwfr⟩ := wfDirs_unpack hwfd
    have hnd2 : (dn :: rest.map Prod.fst).Nodup := by
      rw [List.map_cons] at hnd
      exact hnd
    have hdn_notin : dn ∉ rest.map Prod.fst := (List.nodup_cons.mp hnd2).1
    rw [resolveDirsTrace_cons, List.countP_append]
    rcases Nat.eq_zero_or_pos
      ((resolveTrace rule pp mn (pjoin loc dn) dn dt).countP (coversB p)) with hz | hpos
    · rw [hz, Nat.zero_add]
      exact cover_le_oneL rule pp mn rest loc hwfr (List.nodup_cons.mp hnd2).2 p
    · obtain ⟨op, hop, hcp⟩ := List.countP_pos_iff.mp hpos
      have hreg := cover_region hop hcp
      have hrest : ((resolveDirs noFail rule pp mn loc rest).1).countP (coversB p) = 0 := by
        apply List.countP_eq_zero.mpr
        intro op' hop' hcp'
        obtain ⟨dn', dt', hmem', hop2'⟩ := mem_dirsTrace hop'
        have hsep' : sep ∉ dn' := (wfDirs_mem hwfr hmem').1
        have hne' : dn' ≠ dn := fun heq =>
          hdn_notin (heq ▸ List.mem_map.mpr ⟨(dn', dt'), hmem', rfl⟩)
        have hreg' := cover_region hop2' hcp'
        rcases hreg with h1 | h1 <;> rcases hreg' with h2 | h2
        · exact hne' (pjoin_inj_right (h2.trans h1.symm))
        · exact file_not_under_branch hsep (by rwa [← h1] at h2)
        · exact file_not_under_branch hsep' (by rwa [← h2] at h1)
        · exact branch_disjoint hsep' hsep hne' h2 h1
      rw [hrest]
      have := cover_le_one rule pp mn dt (pjoin loc dn) dn hwfb p
      omega
end

/-! ### Claim C2: each file and directory handled exactly once -/

/-- C2: a rule-matched directory is deployed as one whole-folder copy with
no recursion into it; an unmatched directory contributes its direct files
individually and one recursive call per child under the child's own name;
on a well-formed tree every file is handled exactly once (one individual
copy or one covering folder copy), and no path is covered by two folder
copies. -/
theorem resolve_exactly_once (rule : RuleType) (pp mn : Str) :
    (∀ loc name files dirs kv, findMatchingRule rule.rules name = some kv →
      ∃ dst, resolveTrace rule pp mn loc name (.node files dirs) =
        [FsOp.ensureDir dst, FsOp.copyFolder loc dst]) ∧
    (∀ loc name files dirs, findMatchingRule rule.rules name = none →
      resolveTrace rule pp mn loc name (.node files dirs) =
        installFileOps rule pp mn files ++
          dirs.flatMap (fun d => resolveTrace rule pp mn (pjoin loc d.1) d.1 d.2)) ∧
    (∀ loc name t, wfTree loc t = true → ∀ f ∈ getRecursiveFiles t,
      handledCount (resolveTrace rule pp mn loc name t) f = 1) ∧
    (∀ loc name t, wfTree loc t = true → ∀ p,
      (resolveTrace rule pp mn loc name t).countP (coversB p) ≤ 1) := by
  refine ⟨?_, ?_, ?_, ?_⟩
  · intro loc name files dirs kv h
    exact ⟨_, resolveTrace_matched h⟩
  · intro loc name files dirs h
    rw [resolveTrace_unmatched h, resolveDirsTrace_flatMap]
  · intro loc name t hwf f hf
    exact handled_once rule pp mn t loc name hwf f hf
  · intro loc name t hwf p
    exact cover_le_one rule pp mn t loc name hwf p

/-- The well-formed tree of the C2 witness: a loose file and a rule-matched
`plugins` folder. -/
def treeC2 : FileTree :=
  .node [str "L/a.dll"] [(str "plugins", .node [str "L/plugins/b.dll"] [])]

theorem resolve_exactly_once_witness :
    handledCount
        (resolveTrace ruleC (str "P") (str "Foo") (str "L") (str "root") treeC2)
        (str "L/plugins/b.dll") = 1 ∧
    handledCount
        (resolveTrace ruleC (str "P") (str "Foo") (str "L") (str "root") treeC2)
        (str "L/a.dll") = 1 :=
  ⟨(resolve_exactly_once ruleC (str "P") (str "Foo")).2.2.1 (str "L") (str "root") treeC2
    (by decide) (str "L/plugins/b.dll") (by decide),
   (resolve_exactly_once ruleC (str "P") (str "Foo")).2.2.1 (str "L") (str "root") treeC2
    (by decide) (str "L/a.dll") (by decide)⟩

end R2
